import Mathlib

/-!
Verification of the employee scheduling program (`employee_scheduler.py`).

The scheduler state (`preferences`, `schedule`, `days_worked`) is embedded as
association lists over `String` keys, mirroring Python dicts with insertion
order.  The uniform random pick of the fill pass is modelled by an arbitrary
stream `rng : Nat → Nat`; position `pos` advances by one per draw and the
chosen index is `rng pos % pool.length`, so every possible sequence of
`random.choice` outcomes is realised by some stream.
-/

namespace Sched

/-- Days of the week (`DAYS` in the source). -/
def DAYS : List String :=
  ["Monday", "Tuesday", "Wednesday", "Thursday", "Friday", "Saturday", "Sunday"]

/-- Shift types (`SHIFTS` in the source). -/
def SHIFTS : List String := ["Morning", "Afternoon", "Evening"]

/-- Minimum employees required per shift. -/
def MIN_EMPLOYEES_PER_SHIFT : Nat := 2

/-- Maximum days an employee can work per week. -/
def MAX_DAYS_PER_WEEK : Nat := 5

/-- Association list with string keys: the embedding of a Python dict.
Insertion order is the list order. -/
abbrev AList (α : Type) := List (String × α)

/-- Lookup in an association list (`d[k]` / `k in d` on a Python dict). -/
def lookupD {α : Type} : AList α → String → Option α
  | [], _ => none
  | (k, v) :: rest, key => if k = key then some v else lookupD rest key

/-- Store `d[key] = val` in a Python dict: replace in place if the key is
present (keeping its position), else append at the end. -/
def updateD {α : Type} : AList α → String → α → AList α
  | [], key, val => [(key, val)]
  | (k, v) :: rest, key, val =>
    if k = key then (key, val) :: rest else (k, v) :: updateD rest key val

/-- The scheduler state: the three instance attributes of `EmployeeScheduler`. -/
structure Scheduler where
  preferences : AList (AList String)
  schedule : AList (AList (List String))
  days_worked : AList Nat
  deriving DecidableEq, Repr

/-- `EmployeeScheduler.__init__`: empty preferences and counters, all 21
(day, shift) slots present with empty rosters. -/
def initScheduler : Scheduler where
  preferences := []
  schedule := DAYS.map (fun d => (d, [("Morning", []), ("Afternoon", []), ("Evening", [])]))
  days_worked := []

/-- `self.schedule[day]` (empty map as default; the default is never hit on
states with the canonical slot structure and a valid day). -/
def getShifts (s : Scheduler) (day : String) : AList (List String) :=
  (lookupD s.schedule day).getD []

/-- `self.schedule[day][shift]`. -/
def getRoster (s : Scheduler) (day shift : String) : List String :=
  (lookupD (getShifts s day) shift).getD []

/-- `self.days_worked[employee]` (0 as default; every recorded employee has an
entry, see the key-set invariant). -/
def getDW (s : Scheduler) (e : String) : Nat :=
  (lookupD s.days_worked e).getD 0

/-- The scan over the 3 shift rosters of `day` checking whether `e` is
already scheduled there (lines 88-96 and 139-144 of the source). -/
def alreadyScheduled (s : Scheduler) (e day : String) : Bool :=
  SHIFTS.any (fun sh => (getRoster s day sh).contains e)

/-- Append `e` to the `(day, shift)` roster and increment its day counter
(lines 99-100 and 121-122 of the source). -/
def assignEmployee (s : Scheduler) (day shift e : String) : Scheduler where
  preferences := s.preferences
  schedule := updateD s.schedule day
    (updateD (getShifts s day) shift (getRoster s day shift ++ [e]))
  days_worked := updateD s.days_worked e (getDW s e + 1)

/-- `add_employee_preference(name, day, shift)`: validation, lazy employee
initialisation, duplicate-preference rejection, then storing the preference.
Returns the new state and the boolean result. -/
def add_employee_preference (s : Scheduler) (name day shift : String) :
    Scheduler × Bool :=
  if day ∉ DAYS then (s, false)
  else if shift ∉ SHIFTS then (s, false)
  else if (lookupD s.preferences name).isSome then
    if (lookupD ((lookupD s.preferences name).getD []) day).isSome then (s, false)
    else
      ({ s with preferences := updateD s.preferences name
                  (updateD ((lookupD s.preferences name).getD []) day shift) },
       true)
  else
    ({ s with preferences :=
                updateD (updateD s.preferences name []) name (updateD [] day shift)
              days_worked := updateD s.days_worked name 0 },
     true)

/-- One step of pass 1 of `create_schedule`: the two guards (day cap,
already scheduled today), then assignment to the preferred shift. -/
def pass1Step (s : Scheduler) (e day shift : String) : Scheduler :=
  if MAX_DAYS_PER_WEEK ≤ getDW s e then s
  else if alreadyScheduled s e day then s
  else assignEmployee s day shift e

/-- Pass 1 inner loop: one employee's recorded (day, shift) pairs in
insertion order. -/
def processPrefs (s : Scheduler) (e : String) (prefs : AList String) : Scheduler :=
  prefs.foldl (fun st p => pass1Step st e p.1 p.2) s

/-- Pass 1 of `create_schedule`: employees in insertion order. -/
def pass1 (s : Scheduler) : Scheduler :=
  s.preferences.foldl (fun st p => processPrefs st p.1 p.2) s

/-- `_find_available_employees(day)`: recorded employees below the day cap
and not already scheduled on `day`, in insertion order. -/
def find_available (s : Scheduler) (day : String) : List String :=
  (s.preferences.map Prod.fst).filter
    (fun e => decide (getDW s e < MAX_DAYS_PER_WEEK) && !alreadyScheduled s e day)

/-- The fill `while` loop for one (day, shift) slot.  `fuel` bounds the
number of iterations; `MIN_EMPLOYEES_PER_SHIFT` fuel is always enough
(see `fill_loop_fuel_stable`).  Each draw consumes one stream position. -/
def fillLoop (rng : Nat → Nat) (day shift : String) :
    Nat → Scheduler × Nat → Scheduler × Nat
  | 0, sp => sp
  | fuel + 1, (s, pos) =>
    if (getRoster s day shift).length < MIN_EMPLOYEES_PER_SHIFT then
      if find_available s day = [] then (s, pos)
      else
        fillLoop rng day shift fuel
          (assignEmployee s day shift
            ((find_available s day).getD (rng pos % (find_available s day).length) ""),
           pos + 1)
    else (s, pos)

/-- Pass 2 outer loops: fill the listed slots in order. -/
def fillSlots (rng : Nat → Nat) : List (String × String) → Scheduler × Nat → Scheduler × Nat
  | [], sp => sp
  | (d, sh) :: rest, sp =>
    fillSlots rng rest (fillLoop rng d sh MIN_EMPLOYEES_PER_SHIFT sp)

/-- The 21 slots in the order pass 2 visits them: days in week order,
shifts in Morning/Afternoon/Evening order. -/
def slotOrder : List (String × String) :=
  DAYS.foldr (fun d acc => (SHIFTS.map (fun sh => (d, sh))) ++ acc) []

/-- `create_schedule()`: pass 1 then the minimum-staffing fill pass, the
random stream starting at position 0. -/
def create_schedule (rng : Nat → Nat) (s : Scheduler) : Scheduler :=
  (fillSlots rng slotOrder (pass1 s, 0)).1

/-- A call of the scheduler's public mutating API. -/
inductive Op where
  | addPref (name day shift : String)
  | mkSchedule (rng : Nat → Nat)

/-- Apply one public operation to the state. -/
def applyOp (s : Scheduler) : Op → Scheduler
  | .addPref n d sh => (add_employee_preference s n d sh).1
  | .mkSchedule rng => create_schedule rng s

/-- Run a sequence of public operations. -/
def runOps (s : Scheduler) (ops : List Op) : Scheduler :=
  ops.foldl applyOp s

/-- All employees assigned anywhere on `day`: the three rosters in shift
order, concatenated. -/
def dayAssignments (s : Scheduler) (day : String) : List String :=
  (SHIFTS.map (fun sh => getRoster s day sh)).flatten

/-! ### Association-list lemmas -/

theorem lookupD_updateD_self {α : Type} (m : AList α) (k : String) (v : α) :
    lookupD (updateD m k v) k = some v := by
  induction m with
  | nil => simp [updateD, lookupD]
  | cons p rest ih =>
    obtain ⟨k', v'⟩ := p
    by_cases h : k' = k
    · simp [updateD, h, lookupD]
    · simp [updateD, h, lookupD, ih]

theorem lookupD_updateD_ne {α : Type} (m : AList α) {k k' : String} (v : α)
    (h : k' ≠ k) : lookupD (updateD m k v) k' = lookupD m k' := by
  induction m with
  | nil => simp [updateD, lookupD, Ne.symm h]
  | cons p rest ih =>
    obtain ⟨a, b⟩ := p
    by_cases ha : a = k
    · subst ha
      simp [updateD, lookupD, Ne.symm h]
    · simp only [updateD, if_neg ha, lookupD]
      by_cases hb : a = k'
      · simp [hb]
      · simp [hb, ih]

theorem lookupD_eq_none {α : Type} (m : AList α) (k : String) :
    lookupD m k = none ↔ k ∉ m.map Prod.fst := by
  induction m with
  | nil => simp [lookupD]
  | cons p rest ih =>
    obtain ⟨a, b⟩ := p
    by_cases h : a = k
    · simp [lookupD, h]
    · simp [lookupD, h, ih, Ne.symm h]

theorem lookupD_isSome {α : Type} (m : AList α) (k : String) :
    (lookupD m k).isSome = true ↔ k ∈ m.map Prod.fst := by
  induction m with
  | nil => simp [lookupD]
  | cons p rest ih =>
    obtain ⟨a, b⟩ := p
    by_cases h : a = k
    · simp [lookupD, h]
    · simp [lookupD, h, ih, Ne.symm h]

theorem map_fst_updateD_of_mem {α : Type} (m : AList α) {k : String} (v : α)
    (h : k ∈ m.map Prod.fst) : (updateD m k v).map Prod.fst = m.map Prod.fst := by
  induction m with
  | nil => simp at h
  | cons p rest ih =>
    obtain ⟨a, b⟩ := p
    by_cases ha : a = k
    · simp [updateD, ha]
    · simp only [List.map_cons, List.mem_cons] at h
      rcases h with h | h
      · exact absurd h.symm ha
      · simp [updateD, ha, ih h]

theorem map_fst_updateD_of_not_mem {α : Type} (m : AList α) {k : String} (v : α)
    (h : k ∉ m.map Prod.fst) :
    (updateD m k v).map Prod.fst = m.map Prod.fst ++ [k] := by
  induction m with
  | nil => simp [updateD]
  | cons p rest ih =>
    obtain ⟨a, b⟩ := p
    simp only [List.map_cons, List.mem_cons] at h
    push_neg at h
    simp [updateD, Ne.symm h.1, ih h.2]

theorem updateD_map {α β : Type} (f : α → β) (m : AList α) (k : String) (v : α) :
    (updateD m k v).map (fun p => (p.1, f p.2)) =
      updateD (m.map (fun p => (p.1, f p.2))) k (f v) := by
  induction m with
  | nil => simp [updateD]
  | cons p rest ih =>
    obtain ⟨a, b⟩ := p
    by_cases ha : a = k
    · simp [updateD, ha]
    · simp [updateD, ha, ih]

theorem lookupD_map {α β : Type} (f : α → β) (m : AList α) (k : String) :
    lookupD (m.map (fun p => (p.1, f p.2))) k = (lookupD m k).map f := by
  induction m with
  | nil => simp [lookupD]
  | cons p rest ih =>
    obtain ⟨a, b⟩ := p
    by_cases ha : a = k
    · simp [lookupD, ha]
    · simp [lookupD, ha, ih]

theorem updateD_self_of_lookup {α : Type} {m : AList α} {k : String} {v : α}
    (h : lookupD m k = some v) : updateD m k v = m := by
  induction m with
  | nil => simp [lookupD] at h
  | cons p rest ih =>
    obtain ⟨a, b⟩ := p
    by_cases ha : a = k
    · subst ha
      simp only [lookupD, if_pos rfl] at h
      simp [lookupD] at h
      simp [updateD, h]
    · simp only [lookupD, if_neg ha] at h
      simp [updateD, ha, ih h]

theorem mem_updateD {α : Type} {m : AList α} {k : String} {v : α} {q : String × α}
    (h : q ∈ updateD m k v) : q ∈ m ∨ q = (k, v) := by
  induction m with
  | nil => simp [updateD] at h; simp [h]
  | cons p rest ih =>
    obtain ⟨a, b⟩ := p
    by_cases ha : a = k
    · simp only [updateD, if_pos ha, List.mem_cons] at h
      rcases h with h | h
      · exact Or.inr h
      · exact Or.inl (List.mem_cons_of_mem _ h)
    · simp only [updateD, if_neg ha, List.mem_cons] at h
      rcases h with h | h
      · exact Or.inl (h ▸ List.mem_cons_self _ _)
      · rcases ih h with h' | h'
        · exact Or.inl (List.mem_cons_of_mem _ h')
        · exact Or.inr h'

theorem lookupD_const_map {α : Type} (l : List String) (g : String → α) {k : String}
    (h : k ∈ l) : lookupD (l.map (fun x => (x, g x))) k = some (g k) := by
  induction l with
  | nil => simp at h
  | cons a rest ih =>
    rcases List.mem_cons.mp h with h | h
    · simp [lookupD, h.symm]
    · by_cases ha : a = k
      · simp [lookupD, ha]
      · simp [lookupD, ha, ih h]

theorem getD_mem {α : Type} (l : List α) (i : Nat) (d : α) (h : i < l.length) :
    l.getD i d ∈ l := by
  induction l generalizing i with
  | nil => simp at h
  | cons a rest ih =>
    cases i with
    | zero => simp [List.getD]
    | succ j =>
      simp only [List.getD_cons_succ]
      exact List.mem_cons_of_mem _ (ih j (Nat.lt_of_succ_lt_succ h))

/-! ### Accessor lemmas for `assignEmployee` -/

theorem assign_preferences (s : Scheduler) (d sh e : String) :
    (assignEmployee s d sh e).preferences = s.preferences := rfl

theorem getRoster_assign_self (s : Scheduler) (d sh e : String) :
    getRoster (assignEmployee s d sh e) d sh = getRoster s d sh ++ [e] := by
  simp [getRoster, getShifts, assignEmployee, lookupD_updateD_self]

theorem getRoster_assign_day_ne (s : Scheduler) {d d' : String} (sh sh' e : String)
    (h : d' ≠ d) : getRoster (assignEmployee s d sh e) d' sh' = getRoster s d' sh' := by
  simp [getRoster, getShifts, assignEmployee, lookupD_updateD_ne _ _ h]

theorem getRoster_assign_shift_ne (s : Scheduler) {sh sh' : String} (d d' e : String)
    (h : sh' ≠ sh) : getRoster (assignEmployee s d sh e) d' sh' = getRoster s d' sh' := by
  by_cases hd : d' = d
  · subst hd
    simp [getRoster, getShifts, assignEmployee, lookupD_updateD_self,
      lookupD_updateD_ne _ _ h]
  · exact getRoster_assign_day_ne s sh sh' e hd

theorem getDW_assign_self (s : Scheduler) (d sh e : String) :
    getDW (assignEmployee s d sh e) e = getDW s e + 1 := by
  simp [getDW, assignEmployee, lookupD_updateD_self]

theorem getDW_assign_ne (s : Scheduler) (d sh : String) {e e' : String} (h : e' ≠ e) :
    getDW (assignEmployee s d sh e) e' = getDW s e' := by
  simp [getDW, assignEmployee, lookupD_updateD_ne _ _ h]

theorem mem_roster_assign {s : Scheduler} {d sh e d' sh' e' : String}
    (h : e' ∈ getRoster (assignEmployee s d sh e) d' sh') :
    e' ∈ getRoster s d' sh' ∨ (e' = e ∧ d' = d ∧ sh' = sh) := by
  by_cases hd : d' = d
  · by_cases hsh : sh' = sh
    · subst hd; subst hsh
      rw [getRoster_assign_self] at h
      rcases List.mem_append.mp h with h | h
      · exact Or.inl h
      · simp at h
        exact Or.inr ⟨h, rfl, rfl⟩
    · rw [getRoster_assign_shift_ne s d d' e hsh] at h
      exact Or.inl h
  · rw [getRoster_assign_day_ne s sh sh' e hd] at h
    exact Or.inl h

theorem mem_roster_assign_of_mem {s : Scheduler} {d' sh' e' : String} (d sh e : String)
    (h : e' ∈ getRoster s d' sh') : e' ∈ getRoster (assignEmployee s d sh e) d' sh' := by
  by_cases hd : d' = d
  · by_cases hsh : sh' = sh
    · subst hd; subst hsh
      rw [getRoster_assign_self]
      exact List.mem_append_left _ h
    · rw [getRoster_assign_shift_ne s d d' e hsh]
      exact h
  · rw [getRoster_assign_day_ne s sh sh' e hd]
    exact h

/-! ### Lemmas about `alreadyScheduled` -/

theorem alreadyScheduled_iff (s : Scheduler) (e day : String) :
    alreadyScheduled s e day = true ↔ ∃ sh ∈ SHIFTS, e ∈ getRoster s day sh := by
  simp [alreadyScheduled, List.any_eq_true, List.elem_iff]

theorem alreadyScheduled_assign_of_ne (s : Scheduler) (d sh : String) {e e' : String}
    (day : String) (h : e' ≠ e) :
    alreadyScheduled (assignEmployee s d sh e) e' day = alreadyScheduled s e' day := by
  rcases hb : alreadyScheduled s e' day with _ | _
  · rw [Bool.eq_false_iff]
    intro hc
    rcases (alreadyScheduled_iff _ _ _).mp hc with ⟨sh', hsh', hmem⟩
    rcases mem_roster_assign hmem with hm | ⟨he, _, _⟩
    · rw [Bool.eq_false_iff] at hb
      exact hb ((alreadyScheduled_iff _ _ _).mpr ⟨sh', hsh', hm⟩)
    · exact h he
  · rcases (alreadyScheduled_iff _ _ _).mp hb with ⟨sh', hsh', hmem⟩
    exact (alreadyScheduled_iff _ _ _).mpr ⟨sh', hsh', mem_roster_assign_of_mem d sh e hmem⟩

theorem alreadyScheduled_assign_day_ne (s : Scheduler) {d day : String} (sh e e' : String)
    (h : day ≠ d) :
    alreadyScheduled (assignEmployee s d sh e) e' day = alreadyScheduled s e' day := by
  have hfun : ∀ sh', getRoster (assignEmployee s d sh e) day sh' = getRoster s day sh' :=
    fun sh' => getRoster_assign_day_ne s sh sh' e h
  simp [alreadyScheduled, hfun]

theorem alreadyScheduled_assign_self (s : Scheduler) {d sh : String} (e : String)
    (hsh : sh ∈ SHIFTS) : alreadyScheduled (assignEmployee s d sh e) e d = true := by
  refine (alreadyScheduled_iff _ _ _).mpr ⟨sh, hsh, ?_⟩
  rw [getRoster_assign_self]
  exact List.mem_append_right _ (List.mem_singleton.mpr rfl)

theorem alreadyScheduled_assign_mono (s : Scheduler) (d sh e e' day : String)
    (h : alreadyScheduled s e' day = true) :
    alreadyScheduled (assignEmployee s d sh e) e' day = true := by
  rcases (alreadyScheduled_iff _ _ _).mp h with ⟨sh', hsh', hmem⟩
  exact (alreadyScheduled_iff _ _ _).mpr ⟨sh', hsh', mem_roster_assign_of_mem d sh e hmem⟩

/-! ### `find_available` characterisation -/

theorem mem_find_available (s : Scheduler) (day e : String) :
    e ∈ find_available s day ↔
      e ∈ s.preferences.map Prod.fst ∧ getDW s e < MAX_DAYS_PER_WEEK ∧
        alreadyScheduled s e day = false := by
  simp [find_available, List.mem_filter, Bool.not_eq_true', and_assoc]

theorem find_available_eq_nil (s : Scheduler) (day : String) :
    find_available s day = [] ↔
      ∀ e ∈ s.preferences.map Prod.fst,
        MAX_DAYS_PER_WEEK ≤ getDW s e ∨ alreadyScheduled s e day = true := by
  constructor
  · intro h e he
    by_contra hc
    push_neg at hc
    have : e ∈ find_available s day := by
      rw [mem_find_available]
      exact ⟨he, hc.1, Bool.eq_false_iff.mpr hc.2⟩
    rw [h] at this
    simp at this
  · intro h
    rw [List.eq_nil_iff_forall_not_mem]
    intro e hme
    rw [mem_find_available] at hme
    rcases h e hme.1 with hle | hsched
    · exact Nat.not_le_of_lt hme.2.1 hle
    · rw [hme.2.2] at hsched
      simp at hsched

/-! ### The monotone-progress relation of `create_schedule`

During `create_schedule` the preference map is untouched, day counters only
grow, and rosters only gain elements at the end. -/

structure Progress (s t : Scheduler) : Prop where
  prefs : t.preferences = s.preferences
  dw : ∀ e, getDW s e ≤ getDW t e
  roster : ∀ d sh, ∃ tail, getRoster t d sh = getRoster s d sh ++ tail

theorem Progress.refl (s : Scheduler) : Progress s s :=
  ⟨rfl, fun _ => Nat.le.refl, fun _ _ => ⟨[], (List.append_nil _).symm⟩⟩

theorem Progress.trans {s t u : Scheduler} (h1 : Progress s t) (h2 : Progress t u) :
    Progress s u := by
  refine ⟨h2.prefs.trans h1.prefs, fun e => Nat.le_trans (h1.dw e) (h2.dw e), ?_⟩
  intro d sh
  obtain ⟨t1, ht1⟩ := h1.roster d sh
  obtain ⟨t2, ht2⟩ := h2.roster d sh
  exact ⟨t1 ++ t2, by rw [ht2, ht1, List.append_assoc]⟩

theorem Progress.assign (s : Scheduler) (d sh e : String) :
    Progress s (assignEmployee s d sh e) := by
  refine ⟨rfl, ?_, ?_⟩
  · intro e'
    by_cases h : e' = e
    · subst h
      rw [getDW_assign_self]
      exact Nat.le_succ _
    · rw [getDW_assign_ne s d sh h]
  · intro d' sh'
    by_cases hd : d' = d
    · by_cases hsh : sh' = sh
      · subst hd; subst hsh
        exact ⟨[e], getRoster_assign_self s _ _ e⟩
      · exact ⟨[], by rw [getRoster_assign_shift_ne s d d' e hsh, List.append_nil]⟩
    · exact ⟨[], by rw [getRoster_assign_day_ne s sh sh' e hd, List.append_nil]⟩

theorem Progress.mem_roster {s t : Scheduler} (h : Progress s t) {d sh e : String}
    (hm : e ∈ getRoster s d sh) : e ∈ getRoster t d sh := by
  obtain ⟨tail, htail⟩ := h.roster d sh
  rw [htail]
  exact List.mem_append_left _ hm

theorem Progress.roster_len {s t : Scheduler} (h : Progress s t) (d sh : String) :
    (getRoster s d sh).length ≤ (getRoster t d sh).length := by
  obtain ⟨tail, htail⟩ := h.roster d sh
  rw [htail, List.length_append]
  exact Nat.le_add_right _ _

theorem Progress.sched_mono {s t : Scheduler} (h : Progress s t) {e d : String}
    (hs : alreadyScheduled s e d = true) : alreadyScheduled t e d = true := by
  rcases (alreadyScheduled_iff _ _ _).mp hs with ⟨sh, hsh, hmem⟩
  exact (alreadyScheduled_iff _ _ _).mpr ⟨sh, hsh, h.mem_roster hmem⟩

theorem Progress.avail_empty {s t : Scheduler} (h : Progress s t) {d : String}
    (he : find_available s d = []) : find_available t d = [] := by
  rw [find_available_eq_nil] at he ⊢
  intro e hmem
  rw [h.prefs] at hmem
  rcases he e hmem with hle | hsched
  · exact Or.inl (Nat.le_trans hle (h.dw e))
  · exact Or.inr (h.sched_mono hsched)

/-! ### A generic fold-invariant lemma -/

theorem foldl_rec {α σ : Type} {P : σ → Prop} (f : σ → α → σ) (l : List α) (s : σ)
    (h0 : P s) (hstep : ∀ st a, a ∈ l → P st → P (f st a)) : P (l.foldl f s) := by
  induction l generalizing s with
  | nil => exact h0
  | cons a rest ih =>
    exact ih (f s a) (hstep s a (List.mem_cons_self a rest)
      h0) (fun st b hb hP => hstep st b (List.mem_cons_of_mem a hb) hP)

/-! ### `Progress` across the passes -/

theorem pass1Step_progress (s : Scheduler) (e d sh : String) :
    Progress s (pass1Step s e d sh) := by
  unfold pass1Step
  split
  · exact Progress.refl s
  · split
    · exact Progress.refl s
    · exact Progress.assign s d sh e

theorem processPrefs_progress (s : Scheduler) (e : String) (prefs : AList String) :
    Progress s (processPrefs s e prefs) :=
  foldl_rec _ prefs s (Progress.refl s)
    (fun st p _ hP => hP.trans (pass1Step_progress st e p.1 p.2))

theorem pass1_progress (s : Scheduler) : Progress s (pass1 s) :=
  foldl_rec _ s.preferences s (Progress.refl s)
    (fun st p _ hP => hP.trans (processPrefs_progress st p.1 p.2))

theorem fillLoop_zero (rng : Nat → Nat) (day shift : String) (sp : Scheduler × Nat) :
    fillLoop rng day shift 0 sp = sp := rfl

theorem fillLoop_succ (rng : Nat → Nat) (day shift : String) (fuel : Nat)
    (s : Scheduler) (pos : Nat) :
    fillLoop rng day shift (fuel + 1) (s, pos) =
      if (getRoster s day shift).length < MIN_EMPLOYEES_PER_SHIFT then
        if find_available s day = [] then (s, pos)
        else
          fillLoop rng day shift fuel
            (assignEmployee s day shift
              ((find_available s day).getD (rng pos % (find_available s day).length) ""),
             pos + 1)
      else (s, pos) := rfl

theorem fillLoop_progress (rng : Nat → Nat) (day shift : String) (fuel : Nat)
    (sp : Scheduler × Nat) : Progress sp.1 (fillLoop rng day shift fuel sp).1 := by
  induction fuel generalizing sp with
  | zero => exact Progress.refl _
  | succ n ih =>
    obtain ⟨s, pos⟩ := sp
    rw [fillLoop_succ]
    split
    · split
      · exact Progress.refl _
      · exact (Progress.assign s day shift _).trans
          (ih (assignEmployee s day shift _, pos + 1))
    · exact Progress.refl _

theorem fillSlots_progress (rng : Nat → Nat) (slots : List (String × String))
    (sp : Scheduler × Nat) : Progress sp.1 (fillSlots rng slots sp).1 := by
  induction slots generalizing sp with
  | nil => exact Progress.refl _
  | cons hd rest ih =>
    obtain ⟨d, sh⟩ := hd
    rw [fillSlots]
    exact (fillLoop_progress rng d sh MIN_EMPLOYEES_PER_SHIFT sp).trans (ih _)

theorem create_schedule_progress (rng : Nat → Nat) (s : Scheduler) :
    Progress s (create_schedule rng s) :=
  (pass1_progress s).trans (fillSlots_progress rng slotOrder (pass1 s, 0))

/-! ### Termination of the fill loop: fuel stability -/

theorem fillLoop_fuel_add (rng : Nat → Nat) (day shift : String) :
    ∀ fuel k sp, MIN_EMPLOYEES_PER_SHIFT ≤ (getRoster sp.1 day shift).length + fuel →
      fillLoop rng day shift (fuel + k) sp = fillLoop rng day shift fuel sp := by
  intro fuel
  induction fuel with
  | zero =>
    intro k sp h
    obtain ⟨s, pos⟩ := sp
    simp only [Nat.add_zero] at h
    cases k with
    | zero => rfl
    | succ j =>
      rw [Nat.zero_add, fillLoop_succ, if_neg (Nat.not_lt_of_le h), fillLoop_zero]
  | succ n ih =>
    intro k sp h
    obtain ⟨s, pos⟩ := sp
    dsimp only at h
    have hk : n + 1 + k = (n + k) + 1 := by omega
    rw [hk, fillLoop_succ, fillLoop_succ]
    by_cases hlen : (getRoster s day shift).length < MIN_EMPLOYEES_PER_SHIFT
    · rw [if_pos hlen, if_pos hlen]
      by_cases hfa : find_available s day = []
      · rw [if_pos hfa, if_pos hfa]
      · rw [if_neg hfa, if_neg hfa]
        apply ih
        dsimp only
        rw [getRoster_assign_self, List.length_append]
        simp only [List.length_singleton]
        omega
    · rw [if_neg hlen, if_neg hlen]

/-- A slot the fill pass no longer touches: already at the minimum, or no
available employee for its day. -/
def slotSettled (s : Scheduler) (day shift : String) : Prop :=
  MIN_EMPLOYEES_PER_SHIFT ≤ (getRoster s day shift).length ∨ find_available s day = []

theorem slotSettled_mono {s t : Scheduler} (h : Progress s t) {d sh : String}
    (hs : slotSettled s d sh) : slotSettled t d sh := by
  rcases hs with hs | hs
  · exact Or.inl (Nat.le_trans hs (h.roster_len d sh))
  · exact Or.inr (h.avail_empty hs)

theorem fillLoop_settles (rng : Nat → Nat) (day shift : String) :
    ∀ fuel sp, MIN_EMPLOYEES_PER_SHIFT ≤ (getRoster sp.1 day shift).length + fuel →
      slotSettled (fillLoop rng day shift fuel sp).1 day shift := by
  intro fuel
  induction fuel with
  | zero =>
    intro sp h
    exact Or.inl (by simpa using h)
  | succ n ih =>
    intro sp h
    obtain ⟨s, pos⟩ := sp
    dsimp only at h
    rw [fillLoop_succ]
    by_cases hlen : (getRoster s day shift).length < MIN_EMPLOYEES_PER_SHIFT
    · rw [if_pos hlen]
      by_cases hfa : find_available s day = []
      · rw [if_pos hfa]
        exact Or.inr hfa
      · rw [if_neg hfa]
        apply ih
        dsimp only
        rw [getRoster_assign_self, List.length_append]
        simp only [List.length_singleton]
        omega
    · rw [if_neg hlen]
      exact Or.inl (Nat.le_of_not_lt hlen)

theorem fillSlots_settles (rng : Nat → Nat) :
    ∀ slots sp d sh, (d, sh) ∈ slots →
      slotSettled (fillSlots rng slots sp).1 d sh := by
  intro slots
  induction slots with
  | nil => intro sp d sh h; simp at h
  | cons hd rest ih =>
    intro sp d sh h
    obtain ⟨d0, sh0⟩ := hd
    rw [fillSlots]
    rcases List.mem_cons.mp h with h | h
    · have h1 : d = d0 := congrArg Prod.fst h
      have h2 : sh = sh0 := congrArg Prod.snd h
      subst h1; subst h2
      exact slotSettled_mono (fillSlots_progress rng rest _)
        (fillLoop_settles rng d sh MIN_EMPLOYEES_PER_SHIFT sp
          (Nat.le_add_left _ _))
    · exact ih _ d sh h

theorem mem_slotOrder {d sh : String} :
    (d, sh) ∈ slotOrder ↔ d ∈ DAYS ∧ sh ∈ SHIFTS := by
  simp only [slotOrder, DAYS, SHIFTS, List.foldr, List.map, List.mem_append,
    List.mem_cons, List.not_mem_nil, or_false, Prod.mk.injEq]
  aesop

/-! ### Auxiliary lemmas for the reachable-state invariant -/

theorem lookupD_mem {α : Type} {m : AList α} {k : String} {v : α}
    (h : lookupD m k = some v) : (k, v) ∈ m := by
  induction m with
  | nil => simp [lookupD] at h
  | cons p rest ih =>
    obtain ⟨a, b⟩ := p
    by_cases ha : a = k
    · subst ha
      simp [lookupD] at h
      simp [h]
    · simp only [lookupD, if_neg ha] at h
      exact List.mem_cons_of_mem _ (ih h)

theorem getRoster_init (d sh : String) : getRoster initScheduler d sh = [] := by
  unfold getRoster getShifts
  cases hd : lookupD initScheduler.schedule d with
  | none => simp [lookupD]
  | some inner =>
    have hmem := lookupD_mem hd
    simp only [initScheduler, List.mem_map] at hmem
    obtain ⟨day, _, hday⟩ := hmem
    have hinner : inner = [("Morning", []), ("Afternoon", []), ("Evening", [])] :=
      (congrArg Prod.snd hday).symm
    subst hinner
    simp only [Option.getD_some]
    cases hsh : lookupD [("Morning", ([] : List String)),
        ("Afternoon", []), ("Evening", [])] sh with
    | none => rfl
    | some r =>
      have := lookupD_mem hsh
      simp at this
      rcases this with ⟨_, h⟩ | ⟨_, h⟩ | ⟨_, h⟩ <;> simp [h]

theorem alreadyScheduled_init (e d : String) :
    alreadyScheduled initScheduler e d = false := by
  simp [alreadyScheduled, getRoster_init, SHIFTS]

theorem mem_dayAssignments (s : Scheduler) (e d : String) :
    e ∈ dayAssignments s d ↔ alreadyScheduled s e d = true := by
  simp [dayAssignments, alreadyScheduled, List.any_eq_true, List.elem_iff]

/-- The schedule's key structure: days paired with their shift-key lists. -/
def scheduleShape (s : Scheduler) : List (String × List String) :=
  s.schedule.map (fun p => (p.1, p.2.map Prod.fst))

/-- The fixed 7 × 3 slot structure the constructor builds. -/
def canonicalShape : List (String × List String) :=
  DAYS.map (fun d => (d, SHIFTS))

theorem scheduleShape_init : scheduleShape initScheduler = canonicalShape := by
  simp [scheduleShape, canonicalShape, initScheduler, DAYS, SHIFTS]

theorem scheduleShape_assign {s : Scheduler} (hshape : scheduleShape s = canonicalShape)
    {d sh : String} (hd : d ∈ DAYS) (hsh : sh ∈ SHIFTS) (e : String) :
    scheduleShape (assignEmployee s d sh e) = canonicalShape := by
  have hlk : lookupD (scheduleShape s) d = some SHIFTS := by
    rw [hshape]
    exact lookupD_const_map DAYS (fun _ => SHIFTS) hd
  rw [scheduleShape, lookupD_map] at hlk
  obtain ⟨inner, hinner, hfst⟩ := Option.map_eq_some'.mp hlk
  have hshifts : getShifts s d = inner := by simp [getShifts, hinner]
  show (updateD s.schedule d
      (updateD (getShifts s d) sh (getRoster s d sh ++ [e]))).map
        (fun p => (p.1, p.2.map Prod.fst)) = canonicalShape
  rw [updateD_map]
  have hmapped : (updateD (getShifts s d) sh (getRoster s d sh ++ [e])).map Prod.fst
      = SHIFTS := by
    rw [hshifts, map_fst_updateD_of_mem inner _ (hfst ▸ hsh), hfst]
  rw [hmapped]
  have hbase : s.schedule.map (fun p => (p.1, p.2.map Prod.fst)) = canonicalShape := hshape
  rw [hbase, canonicalShape]
  exact updateD_self_of_lookup (lookupD_const_map DAYS (fun _ => SHIFTS) hd)

theorem filter_length_flip {α : Type} (l : List α) (p q : α → Bool) (a : α)
    (hnd : l.Nodup) (ha : a ∈ l) (hpa : p a = false) (hqa : q a = true)
    (hother : ∀ x ∈ l, x ≠ a → q x = p x) :
    (l.filter q).length = (l.filter p).length + 1 := by
  induction l with
  | nil => simp at ha
  | cons b rest ih =>
    rcases List.nodup_cons.mp hnd with ⟨hb, hndr⟩
    rcases List.mem_cons.mp ha with h | h
    · subst h
      have hrest : ∀ x ∈ rest, q x = p x := by
        intro x hx
        exact hother x (List.mem_cons_of_mem _ hx) (fun hxa => hb (hxa ▸ hx))
      rw [List.filter_cons, List.filter_cons, hpa, hqa, List.filter_congr hrest]
      simp
    · have hba : b ≠ a := fun hba => hb (hba ▸ h)
      have hqb : q b = p b := hother b (List.mem_cons_self _ _) hba
      rw [List.filter_cons, List.filter_cons, hqb]
      have hih := ih hndr h (fun x hx hxa => hother x (List.mem_cons_of_mem _ hx) hxa)
      cases hpb : p b with
      | false => simpa [hpb] using hih
      | true => simpa [hpb] using hih

theorem dayAssignments_expand (s : Scheduler) (d : String) :
    dayAssignments s d =
      getRoster s d "Morning" ++ (getRoster s d "Afternoon" ++
        (getRoster s d "Evening" ++ [])) := rfl

theorem dayAssignments_assign_ne (s : Scheduler) {d d' : String} (sh e : String)
    (h : d' ≠ d) :
    dayAssignments (assignEmployee s d sh e) d' = dayAssignments s d' := by
  rw [dayAssignments_expand, dayAssignments_expand,
    getRoster_assign_day_ne s sh _ e h, getRoster_assign_day_ne s sh _ e h,
    getRoster_assign_day_ne s sh _ e h]

theorem nodup_dayAssignments_assign {s : Scheduler} {d sh e : String}
    (hsh : sh ∈ SHIFTS) (hns : alreadyScheduled s e d = false)
    (hnd : (dayAssignments s d).Nodup) :
    (dayAssignments (assignEmployee s d sh e) d).Nodup := by
  have hne : e ∉ dayAssignments s d := by
    intro hmem
    rw [mem_dayAssignments, hns] at hmem
    exact Bool.noConfusion hmem
  rw [dayAssignments_expand, List.append_nil] at hnd hne
  rw [dayAssignments_expand, List.append_nil]
  have hMA : ("Morning" : String) ≠ "Afternoon" := by decide
  have hME : ("Morning" : String) ≠ "Evening" := by decide
  have hAE : ("Afternoon" : String) ≠ "Evening" := by decide
  simp only [SHIFTS, List.mem_cons, List.not_mem_nil, or_false] at hsh
  rcases hsh with rfl | rfl | rfl
  · rw [getRoster_assign_self, getRoster_assign_shift_ne s d d e hMA.symm,
      getRoster_assign_shift_ne s d d e hME.symm]
    have hperm : List.Perm
        ((getRoster s d "Morning" ++ [e]) ++
          (getRoster s d "Afternoon" ++ getRoster s d "Evening"))
        (e :: (getRoster s d "Morning" ++
          (getRoster s d "Afternoon" ++ getRoster s d "Evening"))) :=
      (List.perm_append_singleton e _).append_right _
    rw [hperm.nodup_iff, List.nodup_cons]
    exact ⟨hne, hnd⟩
  · rw [getRoster_assign_self, getRoster_assign_shift_ne s d d e hMA,
      getRoster_assign_shift_ne s d d e hAE.symm]
    have hperm : List.Perm
        (getRoster s d "Morning" ++
          ((getRoster s d "Afternoon" ++ [e]) ++ getRoster s d "Evening"))
        (e :: (getRoster s d "Morning" ++
          (getRoster s d "Afternoon" ++ getRoster s d "Evening"))) := by
      refine List.Perm.trans (List.Perm.append_left _
        ((List.perm_append_singleton e _).append_right _)) ?_
      exact List.perm_middle
    rw [hperm.nodup_iff, List.nodup_cons]
    exact ⟨hne, hnd⟩
  · rw [getRoster_assign_self, getRoster_assign_shift_ne s d d e hME,
      getRoster_assign_shift_ne s d d e hAE]
    have hperm : List.Perm
        (getRoster s d "Morning" ++
          (getRoster s d "Afternoon" ++ (getRoster s d "Evening" ++ [e])))
        (e :: (getRoster s d "Morning" ++
          (getRoster s d "Afternoon" ++ getRoster s d "Evening"))) := by
      refine List.Perm.trans (List.Perm.append_left _
        (List.Perm.trans (List.Perm.append_left _ (List.perm_append_singleton e _))
          List.perm_middle)) ?_
      exact List.perm_middle
    rw [hperm.nodup_iff, List.nodup_cons]
    exact ⟨hne, hnd⟩

/-! ### The reachable-state invariant -/

/-- Everything that holds of every state reachable through the public API. -/
structure Inv (s : Scheduler) : Prop where
  keys_eq : s.days_worked.map Prod.fst = s.preferences.map Prod.fst
  shape : scheduleShape s = canonicalShape
  dw_le : ∀ e, getDW s e ≤ MAX_DAYS_PER_WEEK
  nodup : ∀ d, (dayAssignments s d).Nodup
  recorded : ∀ d sh e, e ∈ getRoster s d sh → e ∈ s.preferences.map Prod.fst
  count : ∀ e, getDW s e = (DAYS.filter (fun d => alreadyScheduled s e d)).length
  pref_dom : ∀ p ∈ s.preferences, ∀ q ∈ p.2, q.1 ∈ DAYS ∧ q.2 ∈ SHIFTS

theorem Inv_init : Inv initScheduler := by
  refine ⟨rfl, scheduleShape_init, ?_, ?_, ?_, ?_, ?_⟩
  · intro e
    simp [getDW, initScheduler, lookupD, MAX_DAYS_PER_WEEK]
  · intro d
    rw [dayAssignments_expand]
    simp [getRoster_init]
  · intro d sh e hmem
    rw [getRoster_init] at hmem
    simp at hmem
  · intro e
    have h1 : getDW initScheduler e = 0 := by simp [getDW, initScheduler, lookupD]
    rw [h1]
    simp [alreadyScheduled_init]
  · intro p hp
    simp [initScheduler] at hp

theorem Inv_assign {s : Scheduler} (inv : Inv s) {d sh e : String}
    (hd : d ∈ DAYS) (hsh : sh ∈ SHIFTS) (he : e ∈ s.preferences.map Prod.fst)
    (hdw : getDW s e < MAX_DAYS_PER_WEEK) (hns : alreadyScheduled s e d = false) :
    Inv (assignEmployee s d sh e) := by
  have hedw : e ∈ s.days_worked.map Prod.fst := by rw [inv.keys_eq]; exact he
  refine ⟨?_, scheduleShape_assign inv.shape hd hsh e, ?_, ?_, ?_, ?_, ?_⟩
  · show (updateD s.days_worked e (getDW s e + 1)).map Prod.fst
      = s.preferences.map Prod.fst
    rw [map_fst_updateD_of_mem _ _ hedw, inv.keys_eq]
  · intro e'
    by_cases h : e' = e
    · subst h
      rw [getDW_assign_self]
      omega
    · rw [getDW_assign_ne s d sh h]
      exact inv.dw_le e'
  · intro d'
    by_cases h : d' = d
    · subst h
      exact nodup_dayAssignments_assign hsh hns (inv.nodup d')
    · rw [dayAssignments_assign_ne s sh e h]
      exact inv.nodup d'
  · intro d' sh' e' hmem
    rcases mem_roster_assign hmem with hm | ⟨rfl, _, _⟩
    · exact inv.recorded d' sh' e' hm
    · exact he
  · intro e'
    by_cases h : e' = e
    · subst h
      rw [getDW_assign_self]
      have hflip := filter_length_flip DAYS
        (fun d' => alreadyScheduled s e' d')
        (fun d' => alreadyScheduled (assignEmployee s d sh e') e' d') d
        (by decide) hd hns (alreadyScheduled_assign_self s e' hsh)
        (fun x _ hxd => alreadyScheduled_assign_day_ne s sh e' e' hxd)
      rw [hflip, inv.count e']
    · rw [getDW_assign_ne s d sh h]
      have hsame : ∀ day, alreadyScheduled (assignEmployee s d sh e) e' day
          = alreadyScheduled s e' day :=
        fun day => alreadyScheduled_assign_of_ne s d sh day h
      simp only [hsame]
      exact inv.count e'
  · exact inv.pref_dom

theorem pass1Step_preferences (s : Scheduler) (e d sh : String) :
    (pass1Step s e d sh).preferences = s.preferences :=
  (pass1Step_progress s e d sh).prefs

theorem Inv_pass1Step {s : Scheduler} (inv : Inv s) {e : String} {prefs : AList String}
    (hp : (e, prefs) ∈ s.preferences) {d sh : String} (hq : (d, sh) ∈ prefs) :
    Inv (pass1Step s e d sh) := by
  unfold pass1Step
  split
  · exact inv
  · split
    · exact inv
    · rename_i h1 h2
      exact Inv_assign inv (inv.pref_dom _ hp _ hq).1 (inv.pref_dom _ hp _ hq).2
        (List.mem_map.mpr ⟨(e, prefs), hp, rfl⟩)
        (Nat.lt_of_not_le h1) (Bool.eq_false_iff.mpr h2)

theorem Inv_processPrefs {s : Scheduler} (inv : Inv s) {e : String}
    {prefs : AList String} (hp : (e, prefs) ∈ s.preferences) :
    Inv (processPrefs s e prefs) := by
  unfold processPrefs
  have := foldl_rec (P := fun st => Inv st ∧ st.preferences = s.preferences)
    (fun st p => pass1Step st e p.1 p.2) prefs s ⟨inv, rfl⟩ ?_
  · exact this.1
  · intro st q hq hP
    refine ⟨?_, (pass1Step_preferences st e q.1 q.2).trans hP.2⟩
    have hp' : (e, prefs) ∈ st.preferences := by rw [hP.2]; exact hp
    have hq' : (q.1, q.2) ∈ prefs := by simpa using hq
    exact Inv_pass1Step hP.1 hp' hq'

theorem Inv_pass1 {s : Scheduler} (inv : Inv s) : Inv (pass1 s) := by
  unfold pass1
  have := foldl_rec (P := fun st => Inv st ∧ st.preferences = s.preferences)
    (fun st p => processPrefs st p.1 p.2) s.preferences s ⟨inv, rfl⟩ ?_
  · exact this.1
  · intro st p hp hP
    refine ⟨?_, (processPrefs_progress st p.1 p.2).prefs.trans hP.2⟩
    have hp' : (p.1, p.2) ∈ st.preferences := by rw [hP.2]; simpa using hp
    exact Inv_processPrefs hP.1 hp'

theorem Inv_fillLoop (rng : Nat → Nat) {d sh : String} (hd : d ∈ DAYS)
    (hsh : sh ∈ SHIFTS) :
    ∀ fuel sp, Inv sp.1 → Inv (fillLoop rng d sh fuel sp).1 := by
  intro fuel
  induction fuel with
  | zero => intro sp inv; exact inv
  | succ n ih =>
    intro sp inv
    obtain ⟨s, pos⟩ := sp
    rw [fillLoop_succ]
    by_cases hlen : (getRoster s d sh).length < MIN_EMPLOYEES_PER_SHIFT
    · rw [if_pos hlen]
      by_cases hfa : find_available s d = []
      · rw [if_pos hfa]
        exact inv
      · rw [if_neg hfa]
        apply ih
        have hpos : 0 < (find_available s d).length :=
          List.length_pos.mpr hfa
        have hsel : (find_available s d).getD (rng pos % (find_available s d).length) ""
            ∈ find_available s d :=
          getD_mem _ _ _ (Nat.mod_lt _ hpos)
        rw [mem_find_available] at hsel
        exact Inv_assign inv hd hsh hsel.1 hsel.2.1 hsel.2.2
    · rw [if_neg hlen]
      exact inv

theorem Inv_fillSlots (rng : Nat → Nat) :
    ∀ slots sp, (∀ q ∈ slots, q.1 ∈ DAYS ∧ q.2 ∈ SHIFTS) → Inv sp.1 →
      Inv (fillSlots rng slots sp).1 := by
  intro slots
  induction slots with
  | nil => intro sp _ inv; exact inv
  | cons hd0 rest ih =>
    intro sp hvalid inv
    obtain ⟨d0, sh0⟩ := hd0
    rw [fillSlots]
    refine ih _ (fun q hq => hvalid q (List.mem_cons_of_mem _ hq)) ?_
    exact Inv_fillLoop rng (hvalid (d0, sh0) (List.mem_cons_self _ _)).1
      (hvalid (d0, sh0) (List.mem_cons_self _ _)).2 MIN_EMPLOYEES_PER_SHIFT sp inv

theorem Inv_create_schedule {s : Scheduler} (inv : Inv s) (rng : Nat → Nat) :
    Inv (create_schedule rng s) := by
  unfold create_schedule
  refine Inv_fillSlots rng slotOrder (pass1 s, 0) ?_ (Inv_pass1 inv)
  intro q hq
  have : (q.1, q.2) ∈ slotOrder := by simpa using hq
  exact mem_slotOrder.mp this

theorem Inv_addPref {s : Scheduler} (inv : Inv s) (n d sh : String) :
    Inv (add_employee_preference s n d sh).1 := by
  unfold add_employee_preference
  split
  · exact inv
  · split
    · exact inv
    · rename_i hd0 hsh0
      push_neg at hd0 hsh0
      split
      · rename_i hn
        split
        · exact inv
        · rename_i hdup
          obtain ⟨prefs, hprefs⟩ := Option.isSome_iff_exists.mp hn
          have hgd : (lookupD s.preferences n).getD [] = prefs := by rw [hprefs]; rfl
          have hnk : n ∈ s.preferences.map Prod.fst :=
            (lookupD_isSome s.preferences n).mp hn
          refine ⟨?_, inv.shape, inv.dw_le, inv.nodup, ?_, inv.count, ?_⟩
          · show s.days_worked.map Prod.fst
              = (updateD s.preferences n _).map Prod.fst
            rw [map_fst_updateD_of_mem _ _ hnk, inv.keys_eq]
          · intro d' sh' e' hmem
            show e' ∈ (updateD s.preferences n _).map Prod.fst
            rw [map_fst_updateD_of_mem _ _ hnk]
            exact inv.recorded d' sh' e' hmem
          · intro p hp q hq
            rcases mem_updateD hp with hp' | hp'
            · exact inv.pref_dom p hp' q hq
            · subst hp'
              simp only at hq
              rcases mem_updateD hq with hq' | hq'
              · rw [hgd] at hq'
                exact inv.pref_dom (n, prefs) (lookupD_mem hprefs) q hq'
              · subst hq'
                exact ⟨hd0, hsh0⟩
      · rename_i hn
        have hnone : lookupD s.preferences n = none := Option.not_isSome_iff_eq_none.mp hn
        have hnk : n ∉ s.preferences.map Prod.fst := (lookupD_eq_none _ _).mp hnone
        have hnkdw : n ∉ s.days_worked.map Prod.fst := by rw [inv.keys_eq]; exact hnk
        have hkeys : (updateD (updateD s.preferences n []) n
            (updateD [] d sh)).map Prod.fst = s.preferences.map Prod.fst ++ [n] := by
          rw [map_fst_updateD_of_mem, map_fst_updateD_of_not_mem _ _ hnk]
          rw [map_fst_updateD_of_not_mem _ _ hnk]
          exact List.mem_append_right _ (List.mem_singleton.mpr rfl)
        have hnosched : ∀ day, alreadyScheduled s n day = false := by
          intro day
          rw [Bool.eq_false_iff]
          intro hc
          rcases (alreadyScheduled_iff _ _ _).mp hc with ⟨sh', _, hmem⟩
          exact hnk (inv.recorded day sh' n hmem)
        refine ⟨?_, inv.shape, ?_, inv.nodup, ?_, ?_, ?_⟩
        · show (updateD s.days_worked n 0).map Prod.fst = _
          rw [map_fst_updateD_of_not_mem _ _ hnkdw, hkeys, inv.keys_eq]
        · intro e'
          show (lookupD (updateD s.days_worked n 0) e').getD 0 ≤ _
          by_cases h : e' = n
          · subst h
            rw [lookupD_updateD_self]
            exact Nat.zero_le _
          · rw [lookupD_updateD_ne _ _ h]
            exact inv.dw_le e'
        · intro d' sh' e' hmem
          show e' ∈ (updateD (updateD s.preferences n []) n _).map Prod.fst
          rw [hkeys]
          exact List.mem_append_left _ (inv.recorded d' sh' e' hmem)
        · intro e'
          show (lookupD (updateD s.days_worked n 0) e').getD 0 = _
          by_cases h : e' = n
          · subst h
            rw [lookupD_updateD_self]
            have hall : ∀ day ∈ DAYS, (alreadyScheduled s e' day) = false :=
              fun day _ => hnosched day
            simp only [Option.getD_some]
            show (0 : Nat) = (DAYS.filter (fun day => alreadyScheduled s e' day)).length
            rw [List.filter_congr hall]
            simp
          · rw [lookupD_updateD_ne _ _ h]
            exact inv.count e'
        · intro p hp q hq
          rcases mem_updateD hp with hp' | hp'
          · rcases mem_updateD hp' with hp'' | hp''
            · exact inv.pref_dom p hp'' q hq
            · subst hp''
              simp at hq
          · subst hp'
            simp only at hq
            rcases mem_updateD hq with hq' | hq'
            · simp at hq'
            · subst hq'
              exact ⟨hd0, hsh0⟩

theorem Inv_applyOp {s : Scheduler} (inv : Inv s) (op : Op) : Inv (applyOp s op) := by
  cases op with
  | addPref n d sh => exact Inv_addPref inv n d sh
  | mkSchedule rng => exact Inv_create_schedule inv rng

theorem Inv_reachable (ops : List Op) : Inv (runOps initScheduler ops) := by
  unfold runOps
  exact foldl_rec applyOp ops initScheduler Inv_init (fun st op _ inv => Inv_applyOp inv op)

/-! ### Idempotence of `create_schedule` -/

/-- A preference pair the first pass will always skip from now on: the
employee is at the day cap or already scheduled on that day. -/
def prefSettled (s : Scheduler) (e d : String) : Prop :=
  MAX_DAYS_PER_WEEK ≤ getDW s e ∨ alreadyScheduled s e d = true

theorem prefSettled_mono {s t : Scheduler} (h : Progress s t) {e d : String}
    (hs : prefSettled s e d) : prefSettled t e d := by
  rcases hs with hs | hs
  · exact Or.inl (Nat.le_trans hs (h.dw e))
  · exact Or.inr (h.sched_mono hs)

theorem pass1Step_settles {s : Scheduler} {e d sh : String} (hsh : sh ∈ SHIFTS) :
    prefSettled (pass1Step s e d sh) e d := by
  unfold pass1Step
  split
  · exact Or.inl (by assumption)
  · split
    · exact Or.inr (by assumption)
    · exact Or.inr (alreadyScheduled_assign_self s e hsh)

theorem pass1Step_id {s : Scheduler} {e d : String} (sh : String)
    (h : prefSettled s e d) : pass1Step s e d sh = s := by
  unfold pass1Step
  split
  · rfl
  · split
    · rfl
    · rcases h with h | h
      · rename_i h1 _
        exact absurd h h1
      · rename_i h2
        exact absurd h h2

theorem processPrefs_settles (e : String) :
    ∀ (prefs : AList String) (st : Scheduler), (∀ q ∈ prefs, q.2 ∈ SHIFTS) →
      ∀ q ∈ prefs, prefSettled (processPrefs st e prefs) e q.1 := by
  intro prefs
  induction prefs with
  | nil => intro st _ q hq; simp at hq
  | cons q0 rest ih =>
    intro st hdom q hq
    have hstep : processPrefs st e (q0 :: rest)
        = processPrefs (pass1Step st e q0.1 q0.2) e rest := rfl
    rw [hstep]
    rcases List.mem_cons.mp hq with rfl | hq'
    · exact prefSettled_mono (processPrefs_progress _ e rest)
        (pass1Step_settles (hdom q (List.mem_cons_self _ _)))
    · exact ih _ (fun q' hq' => hdom q' (List.mem_cons_of_mem _ hq')) q hq'

theorem processPrefs_id (e : String) :
    ∀ (prefs : AList String) (st : Scheduler),
      (∀ q ∈ prefs, prefSettled st e q.1) → processPrefs st e prefs = st := by
  intro prefs
  induction prefs with
  | nil => intro st _; rfl
  | cons q0 rest ih =>
    intro st hall
    have hstep : processPrefs st e (q0 :: rest)
        = processPrefs (pass1Step st e q0.1 q0.2) e rest := rfl
    rw [hstep, pass1Step_id q0.2 (hall q0 (List.mem_cons_self _ _))]
    exact ih st (fun q hq => hall q (List.mem_cons_of_mem _ hq))

theorem foldl_processPrefs_progress (r : List (String × AList String))
    (st : Scheduler) :
    Progress st (r.foldl (fun acc p => processPrefs acc p.1 p.2) st) :=
  foldl_rec _ r st (Progress.refl st)
    (fun acc p _ hP => hP.trans (processPrefs_progress acc p.1 p.2))

theorem pass1_settles_aux :
    ∀ (r : List (String × AList String)) (st : Scheduler),
      (∀ p ∈ r, ∀ q ∈ p.2, q.2 ∈ SHIFTS) →
      ∀ p ∈ r, ∀ q ∈ p.2,
        prefSettled (r.foldl (fun acc p => processPrefs acc p.1 p.2) st) p.1 q.1 := by
  intro r
  induction r with
  | nil => intro st _ p hp; simp at hp
  | cons p0 rest ih =>
    intro st hdom p hp q hq
    have hstep : (p0 :: rest).foldl (fun acc p => processPrefs acc p.1 p.2) st
        = rest.foldl (fun acc p => processPrefs acc p.1 p.2)
            (processPrefs st p0.1 p0.2) := rfl
    rw [hstep]
    rcases List.mem_cons.mp hp with rfl | hp'
    · exact prefSettled_mono (foldl_processPrefs_progress rest _)
        (processPrefs_settles p.1 p.2 st
          (fun q' hq' => (hdom p (List.mem_cons_self _ _) q' hq')) q hq)
    · exact ih _ (fun p' hp' => hdom p' (List.mem_cons_of_mem _ hp')) p hp' q hq

theorem pass1_id_aux :
    ∀ (r : List (String × AList String)) (st : Scheduler),
      (∀ p ∈ r, ∀ q ∈ p.2, prefSettled st p.1 q.1) →
      r.foldl (fun acc p => processPrefs acc p.1 p.2) st = st := by
  intro r
  induction r with
  | nil => intro st _; rfl
  | cons p0 rest ih =>
    intro st hall
    have hstep : (p0 :: rest).foldl (fun acc p => processPrefs acc p.1 p.2) st
        = rest.foldl (fun acc p => processPrefs acc p.1 p.2)
            (processPrefs st p0.1 p0.2) := rfl
    rw [hstep, processPrefs_id p0.1 p0.2 st (hall p0 (List.mem_cons_self _ _))]
    exact ih st (fun p hp => hall p (List.mem_cons_of_mem _ hp))

theorem pass1_settles {s : Scheduler} (inv : Inv s) :
    ∀ p ∈ s.preferences, ∀ q ∈ p.2, prefSettled (pass1 s) p.1 q.1 :=
  pass1_settles_aux s.preferences s
    (fun p hp q hq => (inv.pref_dom p hp q hq).2)

theorem pass1_id {s : Scheduler}
    (hall : ∀ p ∈ s.preferences, ∀ q ∈ p.2, prefSettled s p.1 q.1) :
    pass1 s = s :=
  pass1_id_aux s.preferences s hall

theorem fillLoop_id {s : Scheduler} {d sh : String} (hs : slotSettled s d sh)
    (rng : Nat → Nat) : ∀ fuel pos, fillLoop rng d sh fuel (s, pos) = (s, pos) := by
  intro fuel pos
  cases fuel with
  | zero => rfl
  | succ n =>
    rw [fillLoop_succ]
    by_cases hlen : (getRoster s d sh).length < MIN_EMPLOYEES_PER_SHIFT
    · rw [if_pos hlen]
      rcases hs with hs | hs
      · exact absurd hs (Nat.not_le_of_lt hlen)
      · rw [if_pos hs]
    · rw [if_neg hlen]

theorem fillSlots_id {s : Scheduler} (rng : Nat → Nat) :
    ∀ slots pos, (∀ q ∈ slots, slotSettled s q.1 q.2) →
      fillSlots rng slots (s, pos) = (s, pos) := by
  intro slots
  induction slots with
  | nil => intro pos _; rfl
  | cons q0 rest ih =>
    intro pos hall
    obtain ⟨d0, sh0⟩ := q0
    rw [fillSlots, fillLoop_id (hall (d0, sh0) (List.mem_cons_self _ _)) rng]
    exact ih pos (fun q hq => hall q (List.mem_cons_of_mem _ hq))

theorem create_schedule_slots_settled (rng : Nat → Nat) (s : Scheduler)
    {d sh : String} (hd : d ∈ DAYS) (hsh : sh ∈ SHIFTS) :
    slotSettled (create_schedule rng s) d sh :=
  fillSlots_settles rng slotOrder (pass1 s, 0) d sh (mem_slotOrder.mpr ⟨hd, hsh⟩)

theorem create_schedule_prefs_settled {s : Scheduler} (inv : Inv s)
    (rng : Nat → Nat) :
    ∀ p ∈ (create_schedule rng s).preferences, ∀ q ∈ p.2,
      prefSettled (create_schedule rng s) p.1 q.1 := by
  intro p hp q hq
  have hpr : (create_schedule rng s).preferences = s.preferences :=
    (create_schedule_progress rng s).prefs
  rw [hpr] at hp
  have h1 : prefSettled (pass1 s) p.1 q.1 := pass1_settles inv p hp q hq
  exact prefSettled_mono (fillSlots_progress rng slotOrder (pass1 s, 0)) h1

theorem create_schedule_idem {s : Scheduler} (inv : Inv s)
    (rng1 rng2 : Nat → Nat) :
    create_schedule rng2 (create_schedule rng1 s) = create_schedule rng1 s := by
  have hp1 : pass1 (create_schedule rng1 s) = create_schedule rng1 s :=
    pass1_id (create_schedule_prefs_settled inv rng1)
  show (fillSlots rng2 slotOrder (pass1 (create_schedule rng1 s), 0)).1
      = create_schedule rng1 s
  rw [hp1]
  rw [fillSlots_id rng2 slotOrder 0 ?_]
  intro q hq
  have hmem : (q.1, q.2) ∈ slotOrder := by simpa using hq
  obtain ⟨hd, hsh⟩ := mem_slotOrder.mp hmem
  exact create_schedule_slots_settled rng1 s hd hsh

/-! ### Stepping lemmas for concrete executions -/

theorem fillSlots_cons (rng : Nat → Nat) (d sh : String) (rest : List (String × String))
    (sp : Scheduler × Nat) :
    fillSlots rng ((d, sh) :: rest) sp
      = fillSlots rng rest (fillLoop rng d sh MIN_EMPLOYEES_PER_SHIFT sp) := rfl

theorem fillSlots_nil (rng : Nat → Nat) (sp : Scheduler × Nat) :
    fillSlots rng [] sp = sp := rfl

theorem fillLoop_of_empty {s : Scheduler} {d : String} (rng : Nat → Nat) (sh : String)
    (fuel pos : Nat) (hfa : find_available s d = []) :
    fillLoop rng d sh fuel (s, pos) = (s, pos) := by
  cases fuel with
  | zero => rfl
  | succ n =>
    rw [fillLoop_succ]
    by_cases hlen : (getRoster s d sh).length < MIN_EMPLOYEES_PER_SHIFT
    · rw [if_pos hlen, if_pos hfa]
    · rw [if_neg hlen]

theorem fillLoop_min_singleton {s : Scheduler} {d sh : String} (rng : Nat → Nat)
    (pos : Nat) (hfa : (find_available s d).length = 1)
    (hlen : (getRoster s d sh).length < MIN_EMPLOYEES_PER_SHIFT)
    (hfa2 : find_available
      (assignEmployee s d sh ((find_available s d).getD 0 "")) d = []) :
    fillLoop rng d sh MIN_EMPLOYEES_PER_SHIFT (s, pos)
      = (assignEmployee s d sh ((find_available s d).getD 0 ""), pos + 1) := by
  conv_lhs => rw [show MIN_EMPLOYEES_PER_SHIFT = 1 + 1 from rfl]
  rw [fillLoop_succ, if_pos hlen]
  have hne : find_available s d ≠ [] := by
    intro h
    rw [h] at hfa
    simp at hfa
  rw [if_neg hne]
  have hidx : rng pos % (find_available s d).length = 0 := by
    rw [hfa, Nat.mod_one]
  rw [hidx]
  exact fillLoop_of_empty rng sh 1 (pos + 1) hfa2

theorem slotOrder_eq : slotOrder =
    [("Monday", "Morning"), ("Monday", "Afternoon"), ("Monday", "Evening"),
     ("Tuesday", "Morning"), ("Tuesday", "Afternoon"), ("Tuesday", "Evening"),
     ("Wednesday", "Morning"), ("Wednesday", "Afternoon"), ("Wednesday", "Evening"),
     ("Thursday", "Morning"), ("Thursday", "Afternoon"), ("Thursday", "Evening"),
     ("Friday", "Morning"), ("Friday", "Afternoon"), ("Friday", "Evening"),
     ("Saturday", "Morning"), ("Saturday", "Afternoon"), ("Saturday", "Evening"),
     ("Sunday", "Morning"), ("Sunday", "Afternoon"), ("Sunday", "Evening")] := rfl

/-! ### The claims -/

/-- C1, counterexample: with employee "Alice" holding only a Morning preference
for Monday, one run of `create_schedule` does NOT leave `days_worked["Alice"]`
at 1 — the fill pass keeps assigning Alice to later days, so the claimed
final state (roster `["Alice"]` and counter 1) is false. -/
theorem scenarioA_counterexample :
    ¬ (getRoster (create_schedule (fun _ => 0) (runOps initScheduler
        [Op.addPref "Alice" "Monday" "Morning"])) "Monday" "Morning" = ["Alice"] ∧
       getDW (create_schedule (fun _ => 0) (runOps initScheduler
        [Op.addPref "Alice" "Monday" "Morning"])) "Alice" = 1) := by
  decide

/-- C1, amended: with employee "Alice" holding only a Morning preference for
Monday, `create_schedule` (under any random source) leaves the Monday/Morning
roster exactly `["Alice"]` and `days_worked["Alice"]` equal to 5: the fill
pass assigns Alice to the Morning shifts of Tuesday through Friday until her
5-day cap. -/
theorem scenarioA_amended (rng : Nat → Nat) :
    getRoster (create_schedule rng (runOps initScheduler
      [Op.addPref "Alice" "Monday" "Morning"])) "Monday" "Morning" = ["Alice"] ∧
    getDW (create_schedule rng (runOps initScheduler
      [Op.addPref "Alice" "Monday" "Morning"])) "Alice" = 5 := by
  unfold create_schedule
  simp +decide only [slotOrder_eq, fillSlots_cons, fillSlots_nil, fillLoop_of_empty,
    fillLoop_min_singleton]

/-- C2: in every state reachable through the public API (any sequence of
`add_employee_preference` and `create_schedule` calls, any random sources),
every employee's `days_worked` counter is at most 5. -/
theorem day_cap_invariant (ops : List Op) (e : String) :
    getDW (runOps initScheduler ops) e ≤ 5 :=
  (Inv_reachable ops).dw_le e

/-- C3: in every reachable state, the concatenation of a day's three shift
rosters has no duplicates — an employee appears in at most one roster of the
day, and at most once within it. -/
theorem no_double_booking (ops : List Op) (d : String) :
    (dayAssignments (runOps initScheduler ops) d).Nodup :=
  (Inv_reachable ops).nodup d

/-- C4: `add_employee_preference` returns `false` and leaves the state
unchanged on an invalid day, an invalid shift, or an existing preference for
the same (name, day); otherwise it stores the preference and returns `true`. -/
theorem add_preference_validation (s : Scheduler) (n d sh : String) :
    (d ∉ DAYS → add_employee_preference s n d sh = (s, false)) ∧
    (sh ∉ SHIFTS → add_employee_preference s n d sh = (s, false)) ∧
    (∀ prefs, lookupD s.preferences n = some prefs → (lookupD prefs d).isSome →
      add_employee_preference s n d sh = (s, false)) ∧
    (d ∈ DAYS → sh ∈ SHIFTS →
      (∀ prefs, lookupD s.preferences n = some prefs → lookupD prefs d = none) →
      (add_employee_preference s n d sh).2 = true ∧
      lookupD ((lookupD (add_employee_preference s n d sh).1.preferences n).getD []) d
        = some sh) := by
  refine ⟨?_, ?_, ?_, ?_⟩
  · intro hd
    simp [add_employee_preference, hd]
  · intro hsh
    by_cases hd : d ∈ DAYS
    · simp [add_employee_preference, hd, hsh]
    · simp [add_employee_preference, hd]
  · intro prefs hprefs hdup
    by_cases hd : d ∈ DAYS
    · by_cases hsh : sh ∈ SHIFTS
      · have hsome : (lookupD s.preferences n).isSome = true := by
          rw [hprefs]; rfl
        have hgd : (lookupD s.preferences n).getD [] = prefs := by rw [hprefs]; rfl
        simp [add_employee_preference, hd, hsh, hsome, hgd, hdup]
      · simp [add_employee_preference, hd, hsh]
    · simp [add_employee_preference, hd]
  · intro hd hsh hnew
    by_cases hn : (lookupD s.preferences n).isSome = true
    · obtain ⟨prefs, hprefs⟩ := Option.isSome_iff_exists.mp hn
      have hgd : (lookupD s.preferences n).getD [] = prefs := by rw [hprefs]; rfl
      have hnone : lookupD prefs d = none := hnew prefs hprefs
      have hdup : (lookupD ((lookupD s.preferences n).getD []) d).isSome = false := by
        rw [hgd, hnone]; rfl
      constructor
      · simp [add_employee_preference, hd, hsh, hn, hdup]
      · simp [add_employee_preference, hd, hsh, hn, hdup, lookupD_updateD_self]
    · constructor
      · simp [add_employee_preference, hd, hsh, hn]
      · simp [add_employee_preference, hd, hsh, hn, lookupD_updateD_self,
          updateD, lookupD]

/-- C4 witness: the invalid day "Funday" is rejected without creating a
"Dana" entry, and a fresh valid preference for "Bob" is stored with `true`. -/
theorem add_preference_validation_witness :
    add_employee_preference initScheduler "Dana" "Funday" "Morning"
      = (initScheduler, false) ∧
    (add_employee_preference initScheduler "Bob" "Monday" "Afternoon").2 = true :=
  ⟨(add_preference_validation initScheduler "Dana" "Funday" "Morning").1 (by decide),
   ((add_preference_validation initScheduler "Bob" "Monday" "Afternoon").2.2.2
      (by decide) (by decide) (fun _ h => nomatch h)).1⟩

/-- C5: after `create_schedule`, every valid (day, shift) roster either meets
the minimum of 2, or the available pool for that day is empty in the final
state (the pool only shrinks during a run, so a pool empty when the slot's
fill loop stopped is still empty at the end): no slot is left below the
minimum while an eligible employee remains. -/
theorem fill_meets_minimum_or_pool_empty (s : Scheduler) (rng : Nat → Nat)
    {d sh : String} (hd : d ∈ DAYS) (hsh : sh ∈ SHIFTS) :
    MIN_EMPLOYEES_PER_SHIFT ≤ (getRoster (create_schedule rng s) d sh).length ∨
      find_available (create_schedule rng s) d = [] :=
  create_schedule_slots_settled rng s hd hsh

/-- C5 witness: instantiated at the empty scheduler and Monday/Morning. -/
theorem fill_meets_minimum_or_pool_empty_witness :
    MIN_EMPLOYEES_PER_SHIFT ≤
      (getRoster (create_schedule (fun _ => 0) initScheduler) "Monday" "Morning").length ∨
    find_available (create_schedule (fun _ => 0) initScheduler) "Monday" = [] :=
  fill_meets_minimum_or_pool_empty initScheduler (fun _ => 0) (by decide) (by decide)

/-- C6: the fill `while` loop terminates within `MIN_EMPLOYEES_PER_SHIFT`
iterations from any state: giving the loop any extra fuel beyond the minimum
never changes the outcome, because each iteration either breaks (roster full
or pool empty) or grows the roster by one.  `create_schedule` is a total
function of the state and random stream by construction. -/
theorem fill_loop_fuel_stable (rng : Nat → Nat) (day shift : String) (k : Nat)
    (sp : Scheduler × Nat) :
    fillLoop rng day shift (MIN_EMPLOYEES_PER_SHIFT + k) sp
      = fillLoop rng day shift MIN_EMPLOYEES_PER_SHIFT sp :=
  fillLoop_fuel_add rng day shift MIN_EMPLOYEES_PER_SHIFT k sp (Nat.le_add_left _ _)

/-- C7: right after construction every roster is empty, the slot structure is
exactly the 7 days each mapped to the 3 shifts, and that slot structure is
preserved by every reachable state. -/
theorem slot_structure_invariant :
    (∀ d sh, getRoster initScheduler d sh = []) ∧
    scheduleShape initScheduler = canonicalShape ∧
    ∀ ops, scheduleShape (runOps initScheduler ops) = canonicalShape :=
  ⟨getRoster_init, scheduleShape_init, fun ops => (Inv_reachable ops).shape⟩

/-- C8: `create_schedule` never changes the preferences map, and
`add_employee_preference` never changes the schedule and never changes the
day counter of any already-recorded employee. -/
theorem frame_conditions (s : Scheduler) (rng : Nat → Nat) (ops : List Op)
    (n d sh : String) :
    (create_schedule rng s).preferences = s.preferences ∧
    (add_employee_preference (runOps initScheduler ops) n d sh).1.schedule
      = (runOps initScheduler ops).schedule ∧
    (∀ e, e ∈ (runOps initScheduler ops).days_worked.map Prod.fst →
      lookupD (add_employee_preference (runOps initScheduler ops) n d sh).1.days_worked e
        = lookupD (runOps initScheduler ops).days_worked e) := by
  refine ⟨(create_schedule_progress rng s).prefs, ?_, ?_⟩
  · unfold add_employee_preference
    split
    · rfl
    · split
      · rfl
      · split
        · split
          · rfl
          · rfl
        · rfl
  · intro e he
    unfold add_employee_preference
    split
    · rfl
    · split
      · rfl
      · split
        · split
          · rfl
          · rfl
        · rename_i hn
          have hnone : lookupD (runOps initScheduler ops).preferences n = none :=
            Option.not_isSome_iff_eq_none.mp hn
          have hne : e ≠ n := by
            intro h
            subst h
            rw [(Inv_reachable ops).keys_eq] at he
            exact ((lookupD_eq_none _ _).mp hnone) he
          show lookupD (updateD (runOps initScheduler ops).days_worked n 0) e = _
          rw [lookupD_updateD_ne _ _ hne]

/-- C8 witness: after recording Alice's preference, a later
`add_employee_preference` call for Bob leaves Alice's day counter alone. -/
theorem frame_conditions_witness :
    lookupD (add_employee_preference
        (runOps initScheduler [Op.addPref "Alice" "Monday" "Morning"])
        "Bob" "Tuesday" "Evening").1.days_worked "Alice"
      = lookupD (runOps initScheduler
          [Op.addPref "Alice" "Monday" "Morning"]).days_worked "Alice" :=
  (frame_conditions initScheduler (fun _ => 0)
    [Op.addPref "Alice" "Monday" "Morning"] "Bob" "Tuesday" "Evening").2.2
    "Alice" (by decide)

/-- C9: in every reachable state the key sets of `days_worked` and
`preferences` coincide, and every employee's counter equals the number of
distinct days (among the 7) on which the employee appears in some shift
roster — in particular it is at most 7. -/
theorem days_worked_matches_roster_count (ops : List Op) (e : String) :
    (e ∈ (runOps initScheduler ops).days_worked.map Prod.fst ↔
      e ∈ (runOps initScheduler ops).preferences.map Prod.fst) ∧
    getDW (runOps initScheduler ops) e
      = (DAYS.filter (fun d => alreadyScheduled (runOps initScheduler ops) e d)).length ∧
    getDW (runOps initScheduler ops) e ≤ 7 := by
  refine ⟨by rw [(Inv_reachable ops).keys_eq], (Inv_reachable ops).count e, ?_⟩
  rw [(Inv_reachable ops).count e]
  calc (DAYS.filter (fun d => alreadyScheduled (runOps initScheduler ops) e d)).length
      ≤ DAYS.length := List.length_filter_le _ _
    _ = 7 := rfl

/-- C10: running `create_schedule` a second time, with any random source,
changes nothing: after the first run every preference is blocked by the
day-cap or already-scheduled guard, and every slot still below the minimum
has an empty pool. -/
theorem create_schedule_idempotent (ops : List Op) (rng1 rng2 : Nat → Nat) :
    create_schedule rng2 (create_schedule rng1 (runOps initScheduler ops))
      = create_schedule rng1 (runOps initScheduler ops) :=
  create_schedule_idem (Inv_reachable ops) rng1 rng2

end Sched
